import Mathlib

/-!
Verification of the terminal-capture subsystem (package `aprocess`):
a `Screen` buffer fed raw bytes with a minimal escape-sequence
interpreter, and an `Execute` orchestration that spawns a command on a
pseudo-terminal and captures its rendered output.

The Go code is embedded shallowly:
* bytes are `Char` values (Go converts each byte to a `rune`, which is
  the identity on code points below 256);
* Go `int` cursor coordinates are `Int`; the only place 64-bit overflow
  is reachable is the `y-1` / `x-1` arithmetic after `strconv.Atoi`
  (whose result is clamped to the 64-bit range on range errors), so
  `wrap64` is applied exactly there;
* a Go slice-index panic is modelled as `Option.none`;
* the `Execute` orchestration is modelled over an environment recording
  the outcomes of its system effects (pty allocation, size query, raw
  mode, the byte chunks the output relay delivers, the child's exit
  status); the result records which effects each path performs.
-/

namespace GoShell

/-- Two's-complement wrap-around into the signed 64-bit range,
modelling Go `int` overflow. -/
def wrap64 (n : Int) : Int := (n + 2 ^ 63) % 2 ^ 64 - 2 ^ 63

/-- The `Screen` struct: grid of runes, dimensions, cursor. -/
structure Screen where
  content : List (List Char)
  width : Nat
  height : Nat
  cursorX : Int
  cursorY : Int
deriving Repr, DecidableEq

/-- `NewScreen`: height rows of width spaces, cursor at origin. -/
def NewScreen (width height : Nat) : Screen :=
  { content := List.replicate height (List.replicate width ' ')
    width := width
    height := height
    cursorX := 0
    cursorY := 0 }

/-- The escape byte 0x1b. -/
def escChar : Char := Char.ofNat 0x1b

/-- Bytes collected into an escape sequence body:
`(p[i] >= 0x30 && p[i] <= 0x3f) || (p[i] >= 0x20 && p[i] <= 0x2f)`. -/
def isParamByte (c : Char) : Bool :=
  (0x30 ≤ c.toNat && c.toNat ≤ 0x3f) || (0x20 ≤ c.toNat && c.toNat ≤ 0x2f)

/-- All-decimal-digit strings parsed to their value, `none` otherwise
(including the empty string). -/
def parseDigits (l : List Char) : Option Nat :=
  if l = [] then none
  else if l.all (fun c => decide ('0' ≤ c) && decide (c ≤ '9')) then
    some (l.foldl (fun acc c => acc * 10 + (c.toNat - '0'.toNat)) 0)
  else none

/-- Go `strconv.Atoi` as used here (the error return is discarded by the
caller): optional sign followed by digits; the value is 0 on any syntax
error, and clamped to the 64-bit limit of the appropriate sign on range
errors. -/
def atoi (l : List Char) : Int :=
  match l with
  | '+' :: rest =>
    match parseDigits rest with
    | some n => min (n : Int) (2 ^ 63 - 1)
    | none => 0
  | '-' :: rest =>
    match parseDigits rest with
    | some n => -(min (n : Int) (2 ^ 63))
    | none => 0
  | _ =>
    match parseDigits l with
    | some n => min (n : Int) (2 ^ 63 - 1)
    | none => 0

/-- Go `strings.Split` on a single-character separator (over rune
lists); `Split("", sep)` is `[""]`. -/
def splitOnChar (sep : Char) : List Char → List (List Char)
  | [] => [[]]
  | c :: rest =>
    if c = sep then [] :: splitOnChar sep rest
    else
      match splitOnChar sep rest with
      | [] => [[c]]
      | l :: ls => (c :: l) :: ls

/-- `handleEscapeSequence`: `"H"` homes the cursor, `"2J"` clears the
grid, a two-part `row;col` before a final `H` positions the cursor at
`(row-1, col-1)` (Go `int` arithmetic, hence `wrap64`), anything else is
ignored. -/
def handleEscapeSequence (s : Screen) (cmd : List Char) : Screen :=
  if cmd = ['H'] then
    { s with cursorX := 0, cursorY := 0 }
  else if cmd = ['2', 'J'] then
    { s with content := s.content.map (fun row => row.map (fun _ => ' ')) }
  else if cmd.getLast? = some 'H' then
    match splitOnChar ';' cmd.dropLast with
    | [p0, p1] =>
      { s with cursorY := wrap64 (atoi p0 - 1), cursorX := wrap64 (atoi p1 - 1) }
    | _ => s
  else s

/-- `scrollUp`: `copy(s.content, s.content[1:])` (shift up, the last
slot keeping the old last row), overwrite row `height-1` with spaces,
pin the cursor row.  Slicing an empty grid or indexing `height-1`
outside the grid panics (`none`). -/
def scrollUp (s : Screen) : Option Screen :=
  if s.content.length < 1 ∨ s.height < 1 ∨ s.content.length < s.height then none
  else
    some { s with
      content := (s.content.drop 1 ++ s.content.drop (s.content.length - 1)).set
        (s.height - 1) (List.replicate s.width ' ')
      cursorY := (s.height : Int) - 1 }

/-- `s.content[y][x] = c`; a negative or too-large index panics. -/
def setCell (g : List (List Char)) (y x : Int) (c : Char) :
    Option (List (List Char)) :=
  if 0 ≤ y then
    match g[y.toNat]? with
    | none => none
    | some row =>
      if 0 ≤ x ∧ x < (row.length : Int) then
        some (g.set y.toNat (row.set x.toNat c))
      else none
  else none

/-- The wrap check run after every byte of `Write`: advance to the next
row when `cursorX >= width`. -/
def wrapCheck (s : Screen) : Screen :=
  if (s.width : Int) ≤ s.cursorX then
    { s with cursorY := s.cursorY + 1, cursorX := 0 }
  else s

/-- The two checks run after every byte of `Write`: wrap when
`cursorX >= width`, then scroll when `cursorY >= height`. -/
def postChecks (s : Screen) : Option Screen :=
  if ((wrapCheck s).height : Int) ≤ (wrapCheck s).cursorY then scrollUp (wrapCheck s)
  else some (wrapCheck s)

/-- The inner accumulation loop of `Write` after `ESC [`: collect
parameter bytes; the remainder starts at the would-be final byte. -/
def readSeq : List Char → List Char × List Char
  | [] => ([], [])
  | c :: rest =>
    if isParamByte c then
      let pr := readSeq rest
      (c :: pr.1, pr.2)
    else ([], c :: rest)

/-- The byte loop of `Screen.Write`.  `ESC [` (with the `[` present in
the same buffer) starts a sequence: parameter bytes and, when present,
one final byte form `cmd`, which is dispatched; `\n` and `\r` move the
cursor; any other byte (including a bare `ESC` not followed by `[`) is
placed at the cursor when `cursorX < width && cursorY < height`, which
panics if a coordinate is negative.  The wrap and scroll checks run
after every byte.  The Go loop advances an index over `p`; each
iteration consumes at least one byte, so recursion on a fuel bounded
below by the remaining length is exact (the zero-fuel case is
unreachable from `Write`). -/
def writeLoop : Nat → Screen → List Char → Option Screen
  | _, s, [] => some s
  | 0, _, _ :: _ => none
  | fuel + 1, s, c :: rest =>
    if c = escChar ∧ rest.head? = some '[' then
      match readSeq rest.tail with
      | (ps, []) => postChecks (handleEscapeSequence s ps)
      | (ps, f :: r) =>
        match postChecks (handleEscapeSequence s (ps ++ [f])) with
        | none => none
        | some s2 => writeLoop fuel s2 r
    else if c = '\n' then
      match postChecks { s with cursorY := s.cursorY + 1, cursorX := 0 } with
      | none => none
      | some s2 => writeLoop fuel s2 rest
    else if c = '\r' then
      match postChecks { s with cursorX := 0 } with
      | none => none
      | some s2 => writeLoop fuel s2 rest
    else if s.cursorX < (s.width : Int) ∧ s.cursorY < (s.height : Int) then
      match setCell s.content s.cursorY s.cursorX c with
      | none => none
      | some g =>
        match postChecks { s with content := g, cursorX := s.cursorX + 1 } with
        | none => none
        | some s2 => writeLoop fuel s2 rest
    else
      match postChecks s with
      | none => none
      | some s2 => writeLoop fuel s2 rest

/-- `Screen.Write` (the returned byte count is always `len(p)` and is
dropped by the model). -/
def Write (s : Screen) (p : List Char) : Option Screen := writeLoop p.length s p

/-- The fold state of `Screen.String`: accumulated lines, the line
being built, and whether an escape run is being skipped. -/
structure RenderState where
  result : List (List Char)
  currentLine : List Char
  inEscape : Bool
deriving Repr, DecidableEq

/-- One character of the render loop of `Screen.String`. -/
def renderChar (st : RenderState) (ch : Char) : RenderState :=
  if ch = escChar then
    { st with inEscape := true, currentLine := [] }
  else if st.inEscape then
    if ('a' ≤ ch ∧ ch ≤ 'z') ∨ ('A' ≤ ch ∧ ch ≤ 'Z') then
      { st with inEscape := false }
    else st
  else if ch = '\r' then { st with currentLine := [] }
  else { st with currentLine := st.currentLine ++ [ch] }

/-- Go `strings.TrimRight(s, " \t")`. -/
def trimRightSpaceTab (l : List Char) : List Char :=
  (l.reverse.dropWhile (fun c => c = ' ' || c = '\t')).reverse

/-- One grid row of the render loop: fold the characters, then append
the built line (right-trimmed) when it is non-empty. -/
def renderRow (st : RenderState) (row : List Char) : RenderState :=
  let st1 := row.foldl renderChar st
  if 0 < st1.currentLine.length then
    { st1 with
      result := st1.result ++ [trimRightSpaceTab st1.currentLine]
      currentLine := [] }
  else st1

/-- Go `unicode.IsSpace` on the Latin-1 range (the only code points a
byte-fed grid can hold). -/
def goIsSpace (c : Char) : Bool :=
  c = ' ' || c = '\t' || c = '\n' || c.toNat = 0x0b || c.toNat = 0x0c ||
    c = '\r' || c.toNat = 0x85 || c.toNat = 0xa0

/-- The trailing loop of `Screen.String`: pop lines from the end while
they are whitespace-only. -/
def dropTrailingBlank (ls : List (List Char)) : List (List Char) :=
  (ls.reverse.dropWhile (fun l => l.all goIsSpace)).reverse

/-- `Screen.String`: render each row, drop trailing blank lines, join
with newlines. -/
def ScreenString (s : Screen) : String :=
  let st := s.content.foldl renderRow
    { result := [], currentLine := [], inEscape := false }
  String.intercalate "\n" ((dropTrailingBlank st.result).map (fun l => String.mk l))

/-- Go `strings.Fields` scan: maximal runs of non-space characters,
carrying the word being built. -/
def fieldsAux (cur : List Char) : List Char → List (List Char)
  | [] => if cur = [] then [] else [cur]
  | c :: rest =>
    if goIsSpace c then
      if cur = [] then fieldsAux [] rest else cur :: fieldsAux [] rest
    else fieldsAux (cur ++ [c]) rest

/-- `strings.Fields(command)`. -/
def goFields (s : String) : List (List Char) := fieldsAux [] s.toList

/-- Outcomes of the system effects `Execute` performs, fixed by the
environment of one invocation. -/
structure ExecEnv where
  /-- `pty.Start(cmd)` (pty allocation plus spawn) succeeds. -/
  ptyStartOk : Bool
  /-- `term.GetSize(os.Stdout)` result: `(width, height)` on success. -/
  termSize : Option (Nat × Nat)
  /-- `term.MakeRaw(os.Stdin)` succeeds. -/
  makeRawOk : Bool
  /-- The byte chunks `io.Copy` hands to `screen.Write` via the
  `MultiWriter` in the output relay. -/
  ptyOutput : List (List Char)
  /-- The exit status `cmd.Wait()` reports for the child process. -/
  exitCode : Nat
deriving Repr, DecidableEq

/-- The error cases `Execute` can return. -/
inductive ExecErr where
  /-- `"empty command"` -/
  | emptyCommand
  /-- `"error creating pseudo-terminal: %v"` -/
  | ptyStart
  /-- `"error getting terminal size: %v"` -/
  | termSize
  /-- `"error setting raw mode: %v"` -/
  | makeRaw
deriving Repr, DecidableEq

/-- The value `Execute` returns, together with a record of which
system effects the taken path performed. -/
structure ExecResult where
  captured : String
  err : Option ExecErr
  /-- a pseudo-terminal was allocated (`pty.Start` reached and ok) -/
  ptyAllocated : Bool
  /-- the child process was spawned -/
  processSpawned : Bool
  /-- `signal.Notify(ch, syscall.SIGWINCH)` was executed -/
  resizeRegistered : Bool
  /-- the resize registration was torn down (`signal.Stop` or
  `close(ch)`) before returning — the source contains no such call on
  any path, so this is `false` whenever registration happened -/
  resizeDeregistered : Bool
deriving Repr, DecidableEq

/-- Fold `screen.Write` over the chunks the output relay delivers. -/
def writeChunks (s : Screen) : List (List Char) → Option Screen
  | [] => some s
  | chunk :: rest =>
    match Write s chunk with
    | none => none
    | some s2 => writeChunks s2 rest

/-- `Execute(command)`: tokenize on whitespace, fail on an empty token
list, start the command on a fresh pty, query the terminal size,
register for SIGWINCH, enter raw mode, relay the pty output into a
fresh `Screen`, wait for the child, and return the rendered capture.
`cmd.Wait()`'s return value is discarded, so `err` is `none` on every
path past raw-mode entry regardless of `env.exitCode`; no path executes
`signal.Stop` or closes the signal channel.  A panic inside
`screen.Write` is `none`. -/
def Execute (command : String) (env : ExecEnv) : Option ExecResult :=
  if goFields command = [] then
    some { captured := "", err := some ExecErr.emptyCommand, ptyAllocated := false,
           processSpawned := false, resizeRegistered := false, resizeDeregistered := false }
  else if !env.ptyStartOk then
    some { captured := "", err := some ExecErr.ptyStart, ptyAllocated := false,
           processSpawned := false, resizeRegistered := false, resizeDeregistered := false }
  else
    match env.termSize with
    | none =>
      some { captured := "", err := some ExecErr.termSize, ptyAllocated := true,
             processSpawned := true, resizeRegistered := false, resizeDeregistered := false }
    | some (w, h) =>
      if !env.makeRawOk then
        some { captured := "", err := some ExecErr.makeRaw, ptyAllocated := true,
               processSpawned := true, resizeRegistered := true, resizeDeregistered := false }
      else
        match writeChunks (NewScreen w h) env.ptyOutput with
        | none => none
        | some scr =>
          some { captured := ScreenString scr, err := none, ptyAllocated := true,
                 processSpawned := true, resizeRegistered := true, resizeDeregistered := false }

/-- The spec-side rendering of a raw input (for comparison with
`ScreenString` after `Write`): split on newlines, right-trim each line,
drop trailing blank lines, join with newlines. -/
def specRender (input : List Char) : String :=
  String.intercalate "\n"
    ((dropTrailingBlank ((splitOnChar '\n' input).map trimRightSpaceTab)).map
      (fun l => String.mk l))

/-- The grid really is `height` rows of `width` columns. -/
def WellSized (s : Screen) : Prop :=
  s.content.length = s.height ∧ ∀ row ∈ s.content, row.length = s.width

/-- Every character of grid `g` is a space or already occurred in grid
`g0` (no new printable bytes). -/
def cellsFrom (g g0 : List (List Char)) : Prop :=
  ∀ row ∈ g, ∀ c ∈ row, c = ' ' ∨ ∃ row0 ∈ g0, c ∈ row0

/-- A padded grid row: the line followed by spaces up to the width. -/
def padRow (w : Nat) (l : List Char) : List Char :=
  l ++ List.replicate (w - l.length) ' '

/-- The lines an escape-free input produces, given the partial line
`cur` already on the current row: newline starts a fresh line, any
other byte extends the current one. -/
def linesAfter (cur : List Char) : List Char → List (List Char)
  | [] => [cur]
  | c :: rest =>
    if c = '\n' then cur :: linesAfter [] rest
    else linesAfter (cur ++ [c]) rest

/-- The final partial line after consuming an escape-free input. -/
def lastLineAfter (cur : List Char) : List Char → List Char
  | [] => cur
  | c :: rest =>
    if c = '\n' then lastLineAfter [] rest
    else lastLineAfter (cur ++ [c]) rest

/-- The screen state after writing the full lines `done` and the
partial line `cur` of an escape-free input into a fresh `w × h` grid:
the finished rows, the row being filled, blank rows below, and the
cursor at the end of the partial row. -/
def lineState (w h : Nat) (done : List (List Char)) (cur : List Char) : Screen :=
  Screen.mk
    (done.map (padRow w) ++ [padRow w cur] ++
      List.replicate (h - (done.length + 1)) (List.replicate w ' '))
    w h (cur.length : Int) (done.length : Int)

/-! ## Helper lemmas -/

theorem wrapCheck_in_width (s : Screen) (hx : s.cursorX < (s.width : Int)) :
    wrapCheck s = s := if_neg (not_le.mpr hx)

theorem postChecks_in_bounds (s : Screen) (hx : s.cursorX < (s.width : Int))
    (hy : s.cursorY < (s.height : Int)) : postChecks s = some s := by
  unfold postChecks
  rw [wrapCheck_in_width s hx, if_neg (not_le.mpr hy)]

theorem writeLoop_single_csi (fuel : Nat) (s : Screen) (body ps : List Char) (f : Char)
    (h : readSeq body = (ps, [f])) :
    writeLoop (fuel + 1) s (escChar :: '[' :: body) =
      postChecks (handleEscapeSequence s (ps ++ [f])) := by
  simp only [writeLoop, List.head?_cons, and_self, if_pos, List.tail_cons, h]
  cases hp : postChecks (handleEscapeSequence s (ps ++ [f])) <;>
    simp [writeLoop, hp]

theorem readSeq_params_final (ps : List Char) (f : Char)
    (hps : ∀ c ∈ ps, isParamByte c = true) (hf : isParamByte f = false) :
    readSeq (ps ++ [f]) = (ps, [f]) := by
  induction ps with
  | nil => simp [readSeq, hf]
  | cons c rest ih =>
    have hc : isParamByte c = true := hps c (by simp)
    simp only [List.cons_append, readSeq, hc, if_pos, List.append_eq]
    rw [ih (fun d hd => hps d (by simp [hd]))]

theorem splitOnChar_not_mem (sep : Char) (l : List Char) (h : sep ∉ l) :
    splitOnChar sep l = [l] := by
  induction l with
  | nil => rfl
  | cons c rest ih =>
    have hc : c ≠ sep := fun hc => h (hc ▸ List.mem_cons_self c rest)
    have hr : sep ∉ rest := fun hr => h (List.mem_cons_of_mem c hr)
    simp only [splitOnChar, if_neg hc, ih hr]

theorem splitOnChar_pair (p1 p2 : List Char) (h1 : ';' ∉ p1) (h2 : ';' ∉ p2) :
    splitOnChar ';' (p1 ++ ';' :: p2) = [p1, p2] := by
  induction p1 with
  | nil => simp [splitOnChar, splitOnChar_not_mem ';' p2 h2]
  | cons c rest ih =>
    have hc : c ≠ ';' := fun hc => h1 (hc ▸ List.mem_cons_self c rest)
    have hr : ';' ∉ rest := fun hr => h1 (List.mem_cons_of_mem c hr)
    simp only [List.cons_append, splitOnChar, if_neg hc, List.append_eq, ih hr]

theorem handleEsc_pair (s : Screen) (p1 p2 : List Char)
    (h1 : ';' ∉ p1) (h2 : ';' ∉ p2) :
    handleEscapeSequence s (p1 ++ ';' :: (p2 ++ ['H'])) =
      { s with cursorY := wrap64 (atoi p1 - 1), cursorX := wrap64 (atoi p2 - 1) } := by
  have hmem : (';' : Char) ∈ p1 ++ ';' :: (p2 ++ ['H']) := by simp
  have hne1 : p1 ++ ';' :: (p2 ++ ['H']) ≠ ['H'] := by
    intro heq
    rw [heq] at hmem
    simp at hmem
  have hne2 : p1 ++ ';' :: (p2 ++ ['H']) ≠ ['2', 'J'] := by
    intro heq
    rw [heq] at hmem
    simp at hmem
  have hassoc : p1 ++ ';' :: (p2 ++ ['H']) = (p1 ++ ';' :: p2) ++ ['H'] := by simp
  unfold handleEscapeSequence
  rw [if_neg hne1, if_neg hne2, hassoc, List.getLast?_concat, if_pos rfl,
    List.dropLast_concat, splitOnChar_pair p1 p2 h1 h2]

theorem fieldsAux_all_space (l : List Char) (h : ∀ c ∈ l, goIsSpace c = true) :
    fieldsAux [] l = [] := by
  induction l with
  | nil => rfl
  | cons c rest ih =>
    simp only [fieldsAux, h c (List.mem_cons_self c rest), if_pos, if_true]
    exact ih (fun d hd => h d (List.mem_cons_of_mem c hd))

theorem set_append_last {α : Type} (l : List α) (x y : α) :
    (l ++ [x]).set l.length y = l ++ [y] := by
  induction l with
  | nil => rfl
  | cons c rest ih => simp [List.set, ih]

theorem scrollUp_eq (s : Screen) (hh : 0 < s.height)
    (hlen : s.content.length = s.height) :
    scrollUp s = some { s with
        content := s.content.drop 1 ++ [List.replicate s.width ' ']
        cursorY := (s.height : Int) - 1 } := by
  unfold scrollUp
  rw [if_neg (by push_neg; omega)]
  obtain ⟨z, hz⟩ : ∃ z, s.content.drop (s.content.length - 1) = [z] := by
    apply List.length_eq_one.mp
    rw [List.length_drop]
    omega
  rw [hz]
  have hd1 : (s.content.drop 1).length = s.height - 1 := by
    rw [List.length_drop, hlen]
  rw [show s.height - 1 = (s.content.drop 1).length from hd1.symm,
    set_append_last]

theorem handleEsc_shape (s : Screen) (cmd : List Char) :
    (handleEscapeSequence s cmd).width = s.width ∧
    (handleEscapeSequence s cmd).height = s.height ∧
    ((handleEscapeSequence s cmd).content = s.content ∨
      (handleEscapeSequence s cmd).content =
        s.content.map (fun row => row.map (fun _ => ' '))) := by
  unfold handleEscapeSequence
  repeat' split
  all_goals simp

theorem wellSized_clear (s : Screen) (hws : WellSized s) :
    WellSized { s with
      content := s.content.map (fun row => row.map (fun _ => ' ')) } := by
  obtain ⟨hlen, hrow⟩ := hws
  constructor
  · simpa using hlen
  · intro row hr
    simp only [List.mem_map] at hr
    obtain ⟨row0, hr0, hrw⟩ := hr
    rw [← hrw]
    simpa using hrow row0 hr0

theorem scrollUp_wellSized (s s2 : Screen) (h : scrollUp s = some s2)
    (hws : WellSized s) :
    WellSized s2 ∧ s2.width = s.width ∧ s2.height = s.height := by
  obtain ⟨hlen, hrow⟩ := hws
  unfold scrollUp at h
  split at h
  · exact absurd h (by simp)
  · rename_i hg
    push_neg at hg
    obtain ⟨hg1, hg2, hg3⟩ := hg
    injection h with hs2
    subst hs2
    refine ⟨⟨?_, ?_⟩, rfl, rfl⟩
    · show ((s.content.drop 1 ++ s.content.drop (s.content.length - 1)).set
        (s.height - 1) (List.replicate s.width ' ')).length = s.height
      simp only [List.length_set, List.length_append, List.length_drop]
      omega
    · intro row hr
      show row.length = s.width
      simp only at hr
      rcases List.mem_or_eq_of_mem_set hr with hmem | heq
      · rcases List.mem_append.mp hmem with hmem1 | hmem1
        · exact hrow row (List.mem_of_mem_drop hmem1)
        · exact hrow row (List.mem_of_mem_drop hmem1)
      · rw [heq]
        simp

theorem setCell_wellSized (g g2 : List (List Char)) (y x : Int) (c : Char)
    (h : setCell g y x c = some g2) :
    g2.length = g.length ∧
    ∀ row2 ∈ g2, ∃ row ∈ g, row2.length = row.length := by
  unfold setCell at h
  split at h
  · split at h
    · exact absurd h (by simp)
    · rename_i row hrow
      split at h
      · injection h with h
        constructor
        · rw [← h]
          simp
        · intro row2 hr2
          rw [← h] at hr2
          rcases List.mem_or_eq_of_mem_set hr2 with hmem | heq
          · exact ⟨row2, hmem, rfl⟩
          · refine ⟨row, ?_, ?_⟩
            · exact List.getElem?_mem hrow
            · rw [heq]
              simp
      · exact absurd h (by simp)
  · exact absurd h (by simp)

theorem wrapCheck_shape (s : Screen) :
    (wrapCheck s).width = s.width ∧ (wrapCheck s).height = s.height ∧
    (wrapCheck s).content = s.content := by
  unfold wrapCheck
  split
  · exact ⟨rfl, rfl, rfl⟩
  · exact ⟨rfl, rfl, rfl⟩

theorem postChecks_wellSized (s s2 : Screen) (h : postChecks s = some s2)
    (hws : WellSized s) :
    WellSized s2 ∧ s2.width = s.width ∧ s2.height = s.height := by
  obtain ⟨hw1, hh1, hc1⟩ := wrapCheck_shape s
  have hws1 : WellSized (wrapCheck s) := by
    obtain ⟨ha, hb⟩ := hws
    exact ⟨by rw [hc1, hh1, ha], by
      intro row hr
      rw [hc1] at hr
      rw [hw1]
      exact hb row hr⟩
  unfold postChecks at h
  split at h
  · obtain ⟨ha, hb, hc⟩ := scrollUp_wellSized (wrapCheck s) s2 h hws1
    exact ⟨ha, by rw [hb, hw1], by rw [hc, hh1]⟩
  · injection h with h
    rw [← h]
    exact ⟨hws1, hw1, hh1⟩

theorem handleEsc_wellSized (s : Screen) (cmd : List Char) (hws : WellSized s) :
    WellSized (handleEscapeSequence s cmd) ∧
    (handleEscapeSequence s cmd).width = s.width ∧
    (handleEscapeSequence s cmd).height = s.height := by
  obtain ⟨he1, he2, he3⟩ := handleEsc_shape s cmd
  refine ⟨⟨?_, ?_⟩, he1, he2⟩
  · rcases he3 with hc | hc
    · rw [hc, he2]
      exact hws.1
    · rw [hc, he2]
      simp only [List.length_map]
      exact hws.1
  · intro row hr
    rw [he1]
    rcases he3 with hc | hc
    · rw [hc] at hr
      exact hws.2 row hr
    · rw [hc] at hr
      simp only [List.mem_map] at hr
      obtain ⟨row0, hr0, hrw⟩ := hr
      rw [← hrw]
      simp only [List.length_map]
      exact hws.2 row0 hr0

theorem writeLoop_wellSized (fuel : Nat) :
    ∀ (s : Screen) (l : List Char) (s2 : Screen),
      writeLoop fuel s l = some s2 → WellSized s →
      WellSized s2 ∧ s2.width = s.width ∧ s2.height = s.height := by
  induction fuel with
  | zero =>
    intro s l s2 h hws
    cases l with
    | nil =>
      injection h with h
      rw [← h]
      exact ⟨hws, rfl, rfl⟩
    | cons c rest => exact absurd h (by simp [writeLoop])
  | succ fuel ih =>
    intro s l s2 h hws
    cases l with
    | nil =>
      injection h with h
      rw [← h]
      exact ⟨hws, rfl, rfl⟩
    | cons c rest =>
      rw [writeLoop] at h
      split at h
      · -- escape branch: split on the readSeq match
        split at h
        · -- no final byte
          rename_i ps hseq
          obtain ⟨hwse, he1, he2⟩ := handleEsc_wellSized s ps hws
          obtain ⟨ha, hb, hc⟩ := postChecks_wellSized _ s2 h hwse
          exact ⟨ha, by rw [hb, he1], by rw [hc, he2]⟩
        · -- final byte, then the loop continues
          rename_i ps f r hseq
          split at h
          · exact absurd h (by simp)
          · rename_i s3 hp
            obtain ⟨hwse, he1, he2⟩ := handleEsc_wellSized s (ps ++ [f]) hws
            obtain ⟨ha, hb, hc⟩ := postChecks_wellSized _ s3 hp hwse
            obtain ⟨ha2, hb2, hc2⟩ := ih s3 r s2 h ha
            exact ⟨ha2, by rw [hb2, hb, he1], by rw [hc2, hc, he2]⟩
      · -- not an escape introducer
        split at h
        · -- newline
          split at h
          · exact absurd h (by simp)
          · rename_i s3 hp
            have hws1 : WellSized { s with cursorY := s.cursorY + 1, cursorX := 0 } :=
              ⟨hws.1, hws.2⟩
            obtain ⟨ha, hb, hc⟩ := postChecks_wellSized _ s3 hp hws1
            obtain ⟨ha2, hb2, hc2⟩ := ih s3 rest s2 h ha
            exact ⟨ha2, by rw [hb2, hb], by rw [hc2, hc]⟩
        · split at h
          · -- carriage return
            split at h
            · exact absurd h (by simp)
            · rename_i s3 hp
              have hws1 : WellSized { s with cursorX := 0 } := ⟨hws.1, hws.2⟩
              obtain ⟨ha, hb, hc⟩ := postChecks_wellSized _ s3 hp hws1
              obtain ⟨ha2, hb2, hc2⟩ := ih s3 rest s2 h ha
              exact ⟨ha2, by rw [hb2, hb], by rw [hc2, hc]⟩
          · split at h
            · -- printable, in bounds: setCell then the checks
              split at h
              · exact absurd h (by simp)
              · rename_i g hg
                split at h
                · exact absurd h (by simp)
                · rename_i s3 hp
                  obtain ⟨hg1, hg2⟩ :=
                    setCell_wellSized s.content g s.cursorY s.cursorX c hg
                  have hws1 : WellSized
                      { s with content := g, cursorX := s.cursorX + 1 } := by
                    constructor
                    · show g.length = s.height
                      rw [hg1, hws.1]
                    · intro row hr
                      obtain ⟨row0, hr0, hrl⟩ := hg2 row hr
                      show row.length = s.width
                      rw [hrl]
                      exact hws.2 row0 hr0
                  obtain ⟨ha, hb, hc⟩ := postChecks_wellSized _ s3 hp hws1
                  obtain ⟨ha2, hb2, hc2⟩ := ih s3 rest s2 h ha
                  exact ⟨ha2, by rw [hb2, hb], by rw [hc2, hc]⟩
            · -- printable, out of bounds: checks only
              split at h
              · exact absurd h (by simp)
              · rename_i s3 hp
                obtain ⟨ha, hb, hc⟩ := postChecks_wellSized s s3 hp hws
                obtain ⟨ha2, hb2, hc2⟩ := ih s3 rest s2 h ha
                exact ⟨ha2, by rw [hb2, hb], by rw [hc2, hc]⟩

theorem writeChunks_wellSized (chunks : List (List Char)) :
    ∀ (s s2 : Screen), writeChunks s chunks = some s2 → WellSized s →
      WellSized s2 ∧ s2.width = s.width ∧ s2.height = s.height := by
  induction chunks with
  | nil =>
    intro s s2 h hws
    injection h with h
    rw [← h]
    exact ⟨hws, rfl, rfl⟩
  | cons chunk rest ih =>
    intro s s2 h hws
    unfold writeChunks at h
    rcases hw : Write s chunk with _ | s3
    · rw [hw] at h
      exact absurd h (by simp)
    · rw [hw] at h
      obtain ⟨ha, hb, hc⟩ := writeLoop_wellSized chunk.length s chunk s3 hw hws
      obtain ⟨ha2, hb2, hc2⟩ := ih s3 s2 h ha
      exact ⟨ha2, by rw [hb2, hb], by rw [hc2, hc]⟩

theorem cellsFrom_of_eq (g g0 : List (List Char)) (h : g = g0) :
    cellsFrom g g0 := fun row hr c hc => Or.inr ⟨row, h ▸ hr, hc⟩

theorem cellsFrom_trans (g2 g1 g0 : List (List Char)) (h21 : cellsFrom g2 g1)
    (h10 : cellsFrom g1 g0) : cellsFrom g2 g0 := by
  intro row hr c hc
  rcases h21 row hr c hc with hsp | ⟨row1, hr1, hc1⟩
  · exact Or.inl hsp
  · exact h10 row1 hr1 c hc1

theorem cellsFrom_clear (g g0 : List (List Char)) :
    cellsFrom (g.map (fun row => row.map (fun _ => ' '))) g0 := by
  intro row hr c hc
  simp only [List.mem_map] at hr
  obtain ⟨row0, _, hrw⟩ := hr
  rw [← hrw] at hc
  simp only [List.mem_map] at hc
  exact Or.inl hc.choose_spec.2.symm

theorem scrollUp_cellsFrom (s s2 : Screen) (h : scrollUp s = some s2) :
    cellsFrom s2.content s.content := by
  unfold scrollUp at h
  split at h
  · exact absurd h (by simp)
  · injection h with hs2
    subst hs2
    intro row hr c hc
    simp only at hr
    rcases List.mem_or_eq_of_mem_set hr with hmem | heq
    · rcases List.mem_append.mp hmem with hmem1 | hmem1
      · exact Or.inr ⟨row, List.mem_of_mem_drop hmem1, hc⟩
      · exact Or.inr ⟨row, List.mem_of_mem_drop hmem1, hc⟩
    · rw [heq] at hc
      exact Or.inl (List.eq_of_mem_replicate hc)

theorem postChecks_cellsFrom (s s2 : Screen) (h : postChecks s = some s2) :
    cellsFrom s2.content s.content := by
  obtain ⟨_, _, hc1⟩ := wrapCheck_shape s
  unfold postChecks at h
  split at h
  · exact cellsFrom_trans _ _ _ (scrollUp_cellsFrom _ _ h) (cellsFrom_of_eq _ _ hc1)
  · injection h with h
    rw [← h]
    exact cellsFrom_of_eq _ _ hc1

theorem scrollUp_some (s : Screen) (hws : WellSized s) (hh : 0 < s.height) :
    ∃ s2, scrollUp s = some s2 := by
  unfold scrollUp
  rw [if_neg (by
    push_neg
    have h1 := hws.1
    omega)]
  exact ⟨_, rfl⟩

theorem postChecks_some (s : Screen) (hws : WellSized s) (hh : 0 < s.height) :
    ∃ s2, postChecks s = some s2 := by
  obtain ⟨hw1, hh1, hc1⟩ := wrapCheck_shape s
  have hws1 : WellSized (wrapCheck s) :=
    ⟨by rw [hc1, hh1]; exact hws.1, by
      intro row hr
      rw [hc1] at hr
      rw [hw1]
      exact hws.2 row hr⟩
  unfold postChecks
  split
  · exact scrollUp_some (wrapCheck s) hws1 (by rw [hh1]; exact hh)
  · exact ⟨_, rfl⟩

theorem splitOnChar_ne_nil (sep : Char) (l : List Char) :
    splitOnChar sep l ≠ [] := by
  cases l with
  | nil => simp [splitOnChar]
  | cons c rest =>
    simp only [splitOnChar]
    split
    · simp
    · split <;> simp

theorem linesAfter_eq_split (input : List Char) :
    ∀ (cur l0 : List Char) (ls : List (List Char)),
      splitOnChar '\n' input = l0 :: ls →
      linesAfter cur input = (cur ++ l0) :: ls := by
  induction input with
  | nil =>
    intro cur l0 ls h
    simp only [splitOnChar] at h
    injection h with h1 h2
    simp [linesAfter, ← h1, ← h2]
  | cons c rest ih =>
    intro cur l0 ls h
    simp only [splitOnChar] at h
    by_cases hc : c = '\n'
    · rw [if_pos hc] at h
      injection h with h1 h2
      cases hs : splitOnChar '\n' rest with
      | nil => exact absurd hs (splitOnChar_ne_nil '\n' rest)
      | cons m ms =>
        have := ih [] m ms hs
        simp only [linesAfter, if_pos hc, ← h1, ← h2]
        rw [this]
        simp [hs]
    · rw [if_neg hc] at h
      cases hs : splitOnChar '\n' rest with
      | nil => exact absurd hs (splitOnChar_ne_nil '\n' rest)
      | cons m ms =>
        rw [hs] at h
        injection h with h1 h2
        have := ih (cur ++ [c]) m ms hs
        simp only [linesAfter, if_neg hc]
        rw [this, ← h1, ← h2]
        simp

theorem linesAfter_shape (input : List Char) (cur : List Char) :
    ∃ tl ls, linesAfter cur input = (cur ++ tl) :: ls := by
  cases hs : splitOnChar '\n' input with
  | nil => exact absurd hs (splitOnChar_ne_nil '\n' input)
  | cons l0 ls => exact ⟨l0, ls, linesAfter_eq_split input cur l0 ls hs⟩

theorem linesAfter_ne_nil (input : List Char) (cur : List Char) :
    linesAfter cur input ≠ [] := by
  obtain ⟨tl, ls, h⟩ := linesAfter_shape input cur
  simp [h]

theorem linesAfter_dropLast_last (input : List Char) :
    ∀ cur, (linesAfter cur input).dropLast ++ [lastLineAfter cur input] =
      linesAfter cur input := by
  induction input with
  | nil => intro cur; rfl
  | cons c rest ih =>
    intro cur
    by_cases hc : c = '\n'
    · simp only [linesAfter, lastLineAfter, if_pos hc]
      rw [List.dropLast_cons_of_ne_nil (linesAfter_ne_nil rest [])]
      rw [List.cons_append, ih []]
    · simp only [linesAfter, lastLineAfter, if_neg hc]
      exact ih (cur ++ [c])

theorem linesAfter_chars (input : List Char) :
    ∀ cur l, l ∈ linesAfter cur input → ∀ c ∈ l, c ∈ cur ∨ c ∈ input := by
  induction input with
  | nil =>
    intro cur l hl c hc
    simp only [linesAfter, List.mem_singleton] at hl
    exact Or.inl (hl ▸ hc)
  | cons b rest ih =>
    intro cur l hl c hc
    by_cases hb : b = '\n'
    · simp only [linesAfter, if_pos hb, List.mem_cons] at hl
      rcases hl with hl | hl
      · exact Or.inl (hl ▸ hc)
      · rcases ih [] l hl c hc with h | h
        · exact absurd h (List.not_mem_nil c)
        · exact Or.inr (List.mem_cons_of_mem b h)
    · simp only [linesAfter, if_neg hb] at hl
      rcases ih (cur ++ [b]) l hl c hc with h | h
      · rcases List.mem_append.mp h with h1 | h1
        · exact Or.inl h1
        · simp only [List.mem_singleton] at h1
          exact Or.inr (h1 ▸ List.mem_cons_self b rest)
      · exact Or.inr (List.mem_cons_of_mem b h)

theorem padRow_length (w : Nat) (l : List Char) (h : l.length ≤ w) :
    (padRow w l).length = w := by
  simp only [padRow, List.length_append, List.length_replicate]
  omega

theorem set_append_cons {α : Type} (l1 : List α) (x y : α) (l2 : List α) :
    (l1 ++ x :: l2).set l1.length y = l1 ++ y :: l2 := by
  induction l1 with
  | nil => rfl
  | cons c rest ih => simp [List.set, ih]

theorem getElem?_append_cons {α : Type} (l1 : List α) (x : α) (l2 : List α) :
    (l1 ++ x :: l2)[l1.length]? = some x := by
  induction l1 with
  | nil => simp
  | cons c rest ih => simpa using ih

theorem padRow_set (w : Nat) (l : List Char) (c : Char) (h : l.length < w) :
    (padRow w l).set l.length c = padRow w (l ++ [c]) := by
  have hrep : List.replicate (w - l.length) ' ' =
      ' ' :: List.replicate (w - (l.length + 1)) ' ' := by
    have : w - l.length = (w - (l.length + 1)) + 1 := by omega
    rw [this, List.replicate_succ]
  simp only [padRow, hrep]
  rw [set_append_cons]
  simp

theorem dropWhile_replicate_append {α : Type} (p : α → Bool) (a : α)
    (hp : p a = true) (k : Nat) (l : List α) :
    (List.replicate k a ++ l).dropWhile p = l.dropWhile p := by
  induction k with
  | zero => rfl
  | succ k ih =>
    rw [List.replicate_succ]
    simp only [List.cons_append, List.dropWhile_cons, hp]
    exact ih

theorem trimRight_pad (w : Nat) (l : List Char) :
    trimRightSpaceTab (padRow w l) = trimRightSpaceTab l := by
  unfold trimRightSpaceTab padRow
  rw [List.reverse_append, List.reverse_replicate]
  rw [dropWhile_replicate_append _ ' ' (by decide)]

theorem dropTrailingBlank_append_blanks (xs : List (List Char)) (k : Nat) :
    dropTrailingBlank (xs ++ List.replicate k []) = dropTrailingBlank xs := by
  unfold dropTrailingBlank
  rw [List.reverse_append, List.reverse_replicate]
  rw [dropWhile_replicate_append _ [] (by decide)]

theorem trimRight_spaces (w : Nat) :
    trimRightSpaceTab (List.replicate w ' ') = [] := by
  unfold trimRightSpaceTab
  rw [List.reverse_replicate]
  rw [show (List.replicate w ' ') = List.replicate w ' ' ++ [] by simp]
  rw [dropWhile_replicate_append _ ' ' (by decide)]
  rfl

theorem foldl_renderChar_plain (row : List Char)
    (hrow : ∀ c ∈ row, c ≠ escChar ∧ c ≠ '\r') :
    ∀ (acc : List (List Char)) (cur0 : List Char),
      row.foldl renderChar ⟨acc, cur0, false⟩ = ⟨acc, cur0 ++ row, false⟩ := by
  induction row with
  | nil =>
    intro acc cur0
    simp
  | cons c rest ih =>
    intro acc cur0
    have hc := hrow c (List.mem_cons_self c rest)
    have hrc : renderChar ⟨acc, cur0, false⟩ c = ⟨acc, cur0 ++ [c], false⟩ := by
      unfold renderChar
      rw [if_neg hc.1]
      simp only [Bool.false_eq_true, if_false]
      rw [if_neg hc.2]
    simp only [List.foldl_cons, hrc]
    rw [ih (fun d hd => hrow d (List.mem_cons_of_mem c hd)) acc (cur0 ++ [c])]
    simp

theorem renderRow_plain (row : List Char) (hlen : 0 < row.length)
    (hrow : ∀ c ∈ row, c ≠ escChar ∧ c ≠ '\r') (acc : List (List Char)) :
    renderRow ⟨acc, [], false⟩ row =
      ⟨acc ++ [trimRightSpaceTab row], [], false⟩ := by
  unfold renderRow
  rw [foldl_renderChar_plain row hrow acc []]
  simp only [List.nil_append]
  rw [if_pos hlen]

theorem padRow_chars (w : Nat) (l : List Char) (c : Char) (hc : c ∈ padRow w l) :
    c ∈ l ∨ c = ' ' := by
  rcases List.mem_append.mp hc with h | h
  · exact Or.inl h
  · exact Or.inr (List.eq_of_mem_replicate h)

theorem foldl_renderRow_lines (w : Nat) (lines : List (List Char))
    (hchars : ∀ l ∈ lines, ∀ c ∈ l, c ≠ escChar ∧ c ≠ '\r')
    (hlen : ∀ l ∈ lines, l.length ≤ w) (hw : 0 < w) :
    ∀ acc, (lines.map (padRow w)).foldl renderRow ⟨acc, [], false⟩ =
      ⟨acc ++ lines.map trimRightSpaceTab, [], false⟩ := by
  induction lines with
  | nil =>
    intro acc
    simp
  | cons l rest ih =>
    intro acc
    have hpl : 0 < (padRow w l).length := by
      rw [padRow_length w l (hlen l (List.mem_cons_self l rest))]
      exact hw
    have hpc : ∀ c ∈ padRow w l, c ≠ escChar ∧ c ≠ '\r' := by
      intro c hc
      rcases padRow_chars w l c hc with h | h
      · exact hchars l (List.mem_cons_self l rest) c h
      · rw [h]
        exact ⟨by decide, by decide⟩
    simp only [List.map_cons, List.foldl_cons]
    rw [renderRow_plain (padRow w l) hpl hpc acc, trimRight_pad]
    rw [ih (fun m hm => hchars m (List.mem_cons_of_mem l hm))
      (fun m hm => hlen m (List.mem_cons_of_mem l hm)) (acc ++ [trimRightSpaceTab l])]
    simp

theorem foldl_renderRow_blanks (w : Nat) (hw : 0 < w) (k : Nat) :
    ∀ acc, (List.replicate k (List.replicate w ' ')).foldl renderRow
        ⟨acc, [], false⟩ = ⟨acc ++ List.replicate k [], [], false⟩ := by
  induction k with
  | zero =>
    intro acc
    simp
  | succ k ih =>
    intro acc
    rw [List.replicate_succ]
    simp only [List.foldl_cons]
    rw [renderRow_plain (List.replicate w ' ') (by simpa using hw)
      (by
        intro c hc
        rw [List.eq_of_mem_replicate hc]
        exact ⟨by decide, by decide⟩) acc]
    rw [trimRight_spaces, ih (acc ++ [[]])]
    rw [List.replicate_succ]
    simp

theorem screenString_padded (s : Screen) (w k : Nat) (hw : 0 < w)
    (lines : List (List Char))
    (hcontent : s.content =
      lines.map (padRow w) ++ List.replicate k (List.replicate w ' '))
    (hchars : ∀ l ∈ lines, ∀ c ∈ l, c ≠ escChar ∧ c ≠ '\r')
    (hlen : ∀ l ∈ lines, l.length ≤ w) :
    ScreenString s =
      String.intercalate "\n"
        ((dropTrailingBlank (lines.map trimRightSpaceTab)).map
          (fun l => String.mk l)) := by
  unfold ScreenString
  rw [hcontent, List.foldl_append]
  rw [foldl_renderRow_lines w lines hchars hlen hw []]
  rw [foldl_renderRow_blanks w hw k (([] : List (List Char)) ++
    lines.map trimRightSpaceTab)]
  simp only [List.nil_append]
  rw [dropTrailingBlank_append_blanks]

theorem setCell_append (pre : List (List Char)) (row : List Char)
    (post : List (List Char)) (x : Int) (c : Char)
    (hx : 0 ≤ x) (hxlt : x < (row.length : Int)) :
    setCell (pre ++ row :: post) (pre.length : Int) x c =
      some (pre ++ row.set x.toNat c :: post) := by
  unfold setCell
  rw [if_pos (by positivity)]
  simp only [Int.toNat_natCast, getElem?_append_cons]
  rw [if_pos ⟨hx, hxlt⟩]
  rw [set_append_cons]

theorem writeLoop_step_print (fuel w h : Nat) (done : List (List Char))
    (cur : List Char) (c : Char) (rest : List Char)
    (hc1 : c ≠ escChar) (hc2 : c ≠ '\n') (hc3 : c ≠ '\r')
    (hfit : cur.length + 1 < w) (hrow : done.length < h) :
    writeLoop (fuel + 1) (lineState w h done cur) (c :: rest) =
      writeLoop fuel (lineState w h done (cur ++ [c])) rest := by
  have hxw : (lineState w h done cur).cursorX <
      ((lineState w h done cur).width : Int) := by
    show (cur.length : Int) < (w : Int)
    exact_mod_cast Nat.lt_of_succ_lt hfit
  have hyh : (lineState w h done cur).cursorY <
      ((lineState w h done cur).height : Int) := by
    show (done.length : Int) < (h : Int)
    exact_mod_cast hrow
  have h1 := setCell_append (done.map (padRow w)) (padRow w cur)
    (List.replicate (h - (done.length + 1)) (List.replicate w ' '))
    (cur.length : Int) c (by positivity)
    (by
      rw [padRow_length w cur (by omega)]
      exact_mod_cast Nat.lt_of_succ_lt hfit)
  rw [List.length_map, Int.toNat_natCast, padRow_set w cur c (by omega)] at h1
  have hpost : postChecks (Screen.mk
      (List.map (padRow w) done ++ padRow w (cur ++ [c]) ::
        List.replicate (h - (done.length + 1)) (List.replicate w ' '))
      w h ((cur.length : Int) + 1) (done.length : Int)) =
      some (Screen.mk
      (List.map (padRow w) done ++ padRow w (cur ++ [c]) ::
        List.replicate (h - (done.length + 1)) (List.replicate w ' '))
      w h (((cur ++ [c]).length : Int)) (done.length : Int)) := by
    have hcast : (((cur ++ [c]).length : Int)) = (cur.length : Int) + 1 := by
      simp
    rw [hcast]
    exact postChecks_in_bounds _ (by
      show (cur.length : Int) + 1 < (w : Int)
      exact_mod_cast hfit) (by
      show (done.length : Int) < (h : Int)
      exact_mod_cast hrow)
  rw [writeLoop, if_neg (fun hand => hc1 hand.1), if_neg hc2, if_neg hc3,
    if_pos ⟨hxw, hyh⟩]
  simp only [lineState, List.append_assoc, List.singleton_append]
  simp only [h1, hpost]

theorem writeLoop_step_nl (fuel w h : Nat) (done : List (List Char))
    (cur : List Char) (rest : List Char)
    (hw : 0 < w) (hcount : done.length + 2 ≤ h) :
    writeLoop (fuel + 1) (lineState w h done cur) ('\n' :: rest) =
      writeLoop fuel (lineState w h (done ++ [cur]) []) rest := by
  have hstate : (Screen.mk
      (List.map (padRow w) done ++ padRow w cur ::
        List.replicate (h - (done.length + 1)) (List.replicate w ' '))
      w h 0 ((done.length : Int) + 1)) =
      Screen.mk (List.map (padRow w) (done ++ [cur]) ++ padRow w [] ::
        List.replicate (h - ((done ++ [cur]).length + 1)) (List.replicate w ' '))
        w h ((([] : List Char).length : Int)) (((done ++ [cur]).length : Int)) := by
    have hrep : List.replicate (h - (done.length + 1)) (List.replicate w ' ') =
        List.replicate w ' ' ::
          List.replicate (h - ((done.length + 1) + 1)) (List.replicate w ' ') := by
      rw [show h - (done.length + 1) = (h - ((done.length + 1) + 1)) + 1 by omega,
        List.replicate_succ]
    have hpadnil : padRow w ([] : List Char) = List.replicate w ' ' := by
      simp [padRow]
    have hcnt : h - ((done ++ [cur]).length + 1) = h - ((done.length + 1) + 1) := by
      simp [List.length_append]
    simp only [Screen.mk.injEq]
    refine ⟨?_, by simp, by simp, by simp, by simp⟩
    rw [List.map_append, hrep, hpadnil, hcnt]
    simp [List.append_assoc]
  have hpost : postChecks (Screen.mk
      (List.map (padRow w) done ++ padRow w cur ::
        List.replicate (h - (done.length + 1)) (List.replicate w ' '))
      w h 0 ((done.length : Int) + 1)) =
      some (Screen.mk (List.map (padRow w) (done ++ [cur]) ++ padRow w [] ::
        List.replicate (h - ((done ++ [cur]).length + 1)) (List.replicate w ' '))
        w h ((([] : List Char).length : Int)) (((done ++ [cur]).length : Int))) := by
    rw [hstate]
    exact postChecks_in_bounds _ (by
      show ((([] : List Char).length : Int)) < (w : Int)
      exact_mod_cast hw) (by
      show (((done ++ [cur]).length : Int)) < (h : Int)
      simp only [List.length_append, List.length_singleton]
      exact_mod_cast (by omega : done.length + 1 < h))
  rw [writeLoop, if_neg (fun hand => absurd hand.1 (by decide)), if_pos rfl]
  simp only [lineState, List.append_assoc, List.singleton_append]
  simp only [hpost]

theorem writeLoop_simple (input : List Char) :
    ∀ (fuel w h : Nat) (done : List (List Char)) (cur : List Char),
      input.length ≤ fuel →
      escChar ∉ input → '\r' ∉ input →
      (∀ l ∈ linesAfter cur input, l.length < w) →
      done.length + (linesAfter cur input).length ≤ h →
      writeLoop fuel (lineState w h done cur) input =
        some (lineState w h (done ++ (linesAfter cur input).dropLast)
          (lastLineAfter cur input)) := by
  induction input with
  | nil =>
    intro fuel w h done cur _ _ _ _ _
    simp only [linesAfter, lastLineAfter, List.dropLast_single, List.append_nil]
    cases fuel <;> rfl
  | cons c rest ih =>
    intro fuel w h done cur hfuel hesc hcr hfit hcount
    cases fuel with
    | zero => simp at hfuel
    | succ fuel =>
      have hfuel2 : rest.length ≤ fuel := by
        simp only [List.length_cons] at hfuel
        omega
      have hesc2 : escChar ∉ rest := fun hm => hesc (List.mem_cons_of_mem c hm)
      have hcr2 : '\r' ∉ rest := fun hm => hcr (List.mem_cons_of_mem c hm)
      by_cases hnl : c = '\n'
      · subst hnl
        have hLA : linesAfter cur ('\n' :: rest) = cur :: linesAfter [] rest := by
          simp [linesAfter]
        have hlast : lastLineAfter cur ('\n' :: rest) = lastLineAfter [] rest := by
          simp [lastLineAfter]
        have hw : 0 < w := by
          obtain ⟨tl, ls, hshape⟩ := linesAfter_shape rest []
          have := hfit ([] ++ tl) (by
            rw [hLA, hshape]
            exact List.mem_cons_of_mem cur (List.mem_cons_self _ _))
          simp at this
          omega
        have hlen_pos : 0 < (linesAfter [] rest).length :=
          List.length_pos.mpr (linesAfter_ne_nil rest [])
        have hcount2 : done.length + 2 ≤ h := by
          rw [hLA] at hcount
          simp only [List.length_cons] at hcount
          omega
        rw [writeLoop_step_nl fuel w h done cur rest hw hcount2]
        rw [ih fuel w h (done ++ [cur]) [] hfuel2 hesc2 hcr2
          (fun l hl => hfit l (by rw [hLA]; exact List.mem_cons_of_mem cur hl))
          (by
            simp only [List.length_append, List.length_singleton]
            rw [hLA] at hcount
            simp only [List.length_cons] at hcount
            omega)]
        rw [hLA, hlast]
        rw [List.dropLast_cons_of_ne_nil (linesAfter_ne_nil rest [])]
        simp
      · have hLA : linesAfter cur (c :: rest) = linesAfter (cur ++ [c]) rest := by
          simp [linesAfter, hnl]
        have hlast : lastLineAfter cur (c :: rest) = lastLineAfter (cur ++ [c]) rest := by
          simp [lastLineAfter, hnl]
        have hc1 : c ≠ escChar := fun hm => hesc (hm ▸ List.mem_cons_self c rest)
        have hc3 : c ≠ '\r' := fun hm => hcr (hm ▸ List.mem_cons_self c rest)
        have hfit2 : cur.length + 1 < w := by
          obtain ⟨tl, ls, hshape⟩ := linesAfter_shape rest (cur ++ [c])
          have := hfit ((cur ++ [c]) ++ tl) (by
            rw [hLA, hshape]
            exact List.mem_cons_self _ _)
          simp only [List.length_append, List.length_singleton] at this
          omega
        have hrow : done.length < h := by
          rw [hLA] at hcount
          have : 0 < (linesAfter (cur ++ [c]) rest).length :=
            List.length_pos.mpr (linesAfter_ne_nil rest (cur ++ [c]))
          omega
        rw [writeLoop_step_print fuel w h done cur c rest hc1 hnl hc3 hfit2 hrow]
        rw [ih fuel w h done (cur ++ [c]) hfuel2 hesc2 hcr2
          (fun l hl => hfit l (by rw [hLA]; exact hl))
          (by rw [hLA] at hcount; exact hcount)]
        rw [hLA, hlast]

theorem NewScreen_eq_lineState (w h : Nat) (hh : 1 ≤ h) :
    NewScreen w h = lineState w h [] [] := by
  unfold NewScreen lineState
  simp only [Screen.mk.injEq]
  refine ⟨?_, by simp, by simp, by simp, by simp⟩
  have hpadnil : padRow w ([] : List Char) = List.replicate w ' ' := by
    simp [padRow]
  rw [show h = (h - 1) + 1 by omega, List.replicate_succ]
  simp [hpadnil]

/-! ## Claims -/

/-- C1.  The claim says `Execute` returns a non-nil error exactly when
the spawned process exits with non-zero status.  The code discards
`cmd.Wait()`'s result and returns `nil` unconditionally once setup
succeeded: with every system effect succeeding and the child of
`Execute "false"` exiting with status 1, the returned error is still
`none`. -/
theorem C1_exit_status_error_discarded :
    (({ ptyStartOk := true, termSize := some (4, 2), makeRawOk := true,
        ptyOutput := [], exitCode := 1 } : ExecEnv).exitCode = 1) ∧
    (Execute "false"
        { ptyStartOk := true, termSize := some (4, 2), makeRawOk := true,
          ptyOutput := [], exitCode := 1 }).map ExecResult.err = some none := by
  decide

/-- C3.  The claim says that after every `Write` the cursor lies in
`[0,rows) × [0,cols)` (or the grid was scrolled so that it is).  After
writing `ESC [ ; H` to a fresh 2×2 screen both cursor coordinates are
`-1` (the missing numbers parse as 0 and the code stores `0-1` without
clamping), and writing one further printable byte indexes the grid at
`[-1][-1]`, a panic. -/
theorem C3_cursor_leaves_bounds :
    (Write (NewScreen 2 2) [escChar, '[', ';', 'H']).map
        (fun s => (s.cursorY, s.cursorX)) = some (-1, -1) ∧
    Write (NewScreen 2 2) [escChar, '[', ';', 'H', 'a'] = none := by
  decide

/-- C9.  The claim says the SIGWINCH registration is deregistered
before `Execute` returns.  The code calls `signal.Notify` but never
`signal.Stop` nor `close(ch)` on any path, so a successful invocation
returns with the registration (and its goroutine) still active. -/
theorem C9_resize_registration_leaks :
    (Execute "true"
        { ptyStartOk := true, termSize := some (4, 2), makeRawOk := true,
          ptyOutput := [], exitCode := 0 }).map
        (fun r => (r.resizeRegistered, r.resizeDeregistered)) =
      some (true, false) := by
  decide

/-- C8.  A command line whose characters are all whitespace tokenizes
to an empty list, and `Execute` returns the `"empty command"` setup
error at once: no pty is allocated, no process spawned, no resize
registration made, and the capture is empty — for every environment. -/
theorem C8_empty_command_setup_error (cmd : String) (env : ExecEnv)
    (h : ∀ c ∈ cmd.toList, goIsSpace c = true) :
    Execute cmd env =
      some { captured := "", err := some ExecErr.emptyCommand,
             ptyAllocated := false, processSpawned := false,
             resizeRegistered := false, resizeDeregistered := false } := by
  unfold Execute goFields
  rw [fieldsAux_all_space cmd.toList h]
  simp

theorem C8_empty_command_setup_error_witness :
    Execute "   "
        { ptyStartOk := true, termSize := some (4, 2), makeRawOk := true,
          ptyOutput := [['x']], exitCode := 0 } =
      some { captured := "", err := some ExecErr.emptyCommand,
             ptyAllocated := false, processSpawned := false,
             resizeRegistered := false, resizeDeregistered := false } :=
  C8_empty_command_setup_error "   " _ (by decide)

/-- C7.  Writing `ESC [ 2 J` maps every grid cell to a space and leaves
both cursor coordinates unchanged (the in-bounds hypotheses keep the
wrap and scroll checks quiescent, as they are after any well-formed
write). -/
theorem C7_clear_screen (s : Screen) (hx : s.cursorX < (s.width : Int))
    (hy : s.cursorY < (s.height : Int)) :
    Write s [escChar, '[', '2', 'J'] =
      some { s with content := s.content.map (fun row => row.map (fun _ => ' ')) } := by
  have hr : readSeq ['2', 'J'] = (['2'], ['J']) := rfl
  have h4 : ([escChar, '[', '2', 'J'] : List Char).length = 3 + 1 := rfl
  unfold Write
  rw [h4, writeLoop_single_csi 3 s ['2', 'J'] ['2'] 'J' hr]
  have hcmd : handleEscapeSequence s (['2'] ++ ['J']) =
      { s with content := s.content.map (fun row => row.map (fun _ => ' ')) } := by
    unfold handleEscapeSequence
    norm_num
  rw [hcmd]
  exact postChecks_in_bounds _ hx hy

/-- C2 counterexample.  The claim quantifies over every escape-free
input, but auto-wrap already breaks it: on a 2×2 screen the input
`"abc"` renders as `"ab\nc"` while the input with trailing blanks and
per-line trailing whitespace removed is `"abc"`. -/
theorem C2_counterexample :
    (Write (NewScreen 2 2) ['a', 'b', 'c']).map ScreenString = some "ab\nc" ∧
    specRender ['a', 'b', 'c'] = "abc" := by
  decide

/-- C2 (amended).  For an input with no escape byte and no carriage
return, whose lines each fit strictly within the grid width and whose
line count is at most the grid height (so no wrap or scroll fires),
`Render` after `Write` on a fresh screen returns exactly the input with
trailing blank lines and per-line trailing whitespace removed; interior
rows that render to the empty string are preserved as line breaks. -/
theorem C2_render_roundtrip (w h : Nat) (input : List Char)
    (hesc : escChar ∉ input) (hcr : '\r' ∉ input)
    (hfit : ∀ l ∈ splitOnChar '\n' input, l.length < w)
    (hcount : (splitOnChar '\n' input).length ≤ h) :
    (Write (NewScreen w h) input).map ScreenString = some (specRender input) := by
  have hsplit_eq : linesAfter [] input = splitOnChar '\n' input := by
    cases hs : splitOnChar '\n' input with
    | nil => exact absurd hs (splitOnChar_ne_nil '\n' input)
    | cons l0 ls =>
      rw [linesAfter_eq_split input [] l0 ls hs]
      simp
  have hfitL : ∀ l ∈ linesAfter [] input, l.length < w := by
    rw [hsplit_eq]
    exact hfit
  have hcountL : ([] : List (List Char)).length + (linesAfter [] input).length ≤ h := by
    rw [hsplit_eq]
    simpa using hcount
  have h1 : 1 ≤ h :=
    le_trans (List.length_pos.mpr (splitOnChar_ne_nil '\n' input)) hcount
  have hw0 : 0 < w := by
    obtain ⟨tl, ls, hshape⟩ := linesAfter_shape input []
    have := hfitL ([] ++ tl) (by rw [hshape]; exact List.mem_cons_self _ _)
    simp at this
    omega
  have hrejoin := linesAfter_dropLast_last input []
  unfold Write
  rw [NewScreen_eq_lineState w h h1,
    writeLoop_simple input input.length w h [] [] le_rfl hesc hcr hfitL hcountL]
  simp only [Option.map_some', List.nil_append]
  have hcontent : (lineState w h ((linesAfter [] input).dropLast)
      (lastLineAfter [] input)).content =
      (linesAfter [] input).map (padRow w) ++
        List.replicate (h - (linesAfter [] input).length)
          (List.replicate w ' ') := by
    show ((linesAfter [] input).dropLast).map (padRow w) ++
        [padRow w (lastLineAfter [] input)] ++
        List.replicate (h - (((linesAfter [] input).dropLast).length + 1))
          (List.replicate w ' ') = _
    rw [← hrejoin, List.map_append]
    have hlen2 : ((linesAfter [] input).dropLast ++
        [lastLineAfter [] input]).length =
        ((linesAfter [] input).dropLast).length + 1 := by
      simp
    rw [hlen2]
    simp [List.append_assoc]
  rw [screenString_padded _ w (h - (linesAfter [] input).length) hw0
    (linesAfter [] input) hcontent
    (by
      intro l hl c hc
      rcases linesAfter_chars input [] l hl c hc with hmem | hmem
      · exact absurd hmem (List.not_mem_nil c)
      · exact ⟨fun he => hesc (he ▸ hmem), fun he => hcr (he ▸ hmem)⟩)
    (fun l hl => Nat.le_of_lt (hfitL l hl))]
  unfold specRender
  rw [hsplit_eq]

theorem C2_render_roundtrip_witness :
    (Write (NewScreen 5 3) "ab \n\nx".toList).map ScreenString =
      some (specRender "ab \n\nx".toList) :=
  C2_render_roundtrip 5 3 "ab \n\nx".toList (by decide) (by decide)
    (by decide) (by decide)

/-- C5.  `ESC [ H` homes the cursor to `(0,0)`; a two-part body
`p1 ; p2` before a final `H` dispatches to the cursor assignment
`(row-1, col-1)` with `row = Atoi(p1)` and `col = Atoi(p2)` (Go `int`
arithmetic); missing numbers parse as 0, giving `(-1, -1)` for
`ESC [ ; H`; and the in-range numeric pair `3;5` lands on the 0-indexed
position `(2, 4)`. -/
theorem C5_cursor_positioning (s : Screen) (p1 p2 : List Char)
    (hw : 0 < s.width) (hh : 0 < s.height)
    (h1 : ';' ∉ p1) (h2 : ';' ∉ p2) :
    Write s [escChar, '[', 'H'] = some { s with cursorX := 0, cursorY := 0 } ∧
    handleEscapeSequence s (p1 ++ ';' :: (p2 ++ ['H'])) =
      { s with cursorY := wrap64 (atoi p1 - 1), cursorX := wrap64 (atoi p2 - 1) } ∧
    handleEscapeSequence s [';', 'H'] = { s with cursorY := -1, cursorX := -1 } ∧
    handleEscapeSequence s ['3', ';', '5', 'H'] =
      { s with cursorY := 2, cursorX := 4 } := by
  refine ⟨?_, handleEsc_pair s p1 p2 h1 h2, ?_, ?_⟩
  · have hr : readSeq ['H'] = ([], ['H']) := rfl
    have h3 : ([escChar, '[', 'H'] : List Char).length = 2 + 1 := rfl
    unfold Write
    rw [h3, writeLoop_single_csi 2 s ['H'] [] 'H' hr]
    have hcmd : handleEscapeSequence s ([] ++ ['H']) =
        { s with cursorX := 0, cursorY := 0 } := by
      unfold handleEscapeSequence
      norm_num
    rw [hcmd]
    refine postChecks_in_bounds _ ?_ ?_
    · show (0 : Int) < (s.width : Int)
      exact_mod_cast hw
    · show (0 : Int) < (s.height : Int)
      exact_mod_cast hh
  · have h0 := handleEsc_pair s [] [] (by simp) (by simp)
    simp only [List.nil_append] at h0
    rw [h0]
    norm_num [atoi, parseDigits, wrap64]
  · have h0 := handleEsc_pair s ['3'] ['5'] (by decide) (by decide)
    simp only [List.cons_append, List.nil_append] at h0
    rw [h0]
    have e1 : wrap64 (atoi ['3'] - 1) = 2 := by decide
    have e2 : wrap64 (atoi ['5'] - 1) = 4 := by decide
    rw [e1, e2]

theorem C5_cursor_positioning_witness :
    Write (NewScreen 4 3) [escChar, '[', 'H'] =
        some { (NewScreen 4 3) with cursorX := 0, cursorY := 0 } ∧
    handleEscapeSequence (NewScreen 4 3) (['7'] ++ ';' :: (['x'] ++ ['H'])) =
      { (NewScreen 4 3) with
          cursorY := wrap64 (atoi ['7'] - 1)
          cursorX := wrap64 (atoi ['x'] - 1) } :=
  ⟨(C5_cursor_positioning (NewScreen 4 3) ['7'] ['x'] (by decide) (by decide)
      (by decide) (by decide)).1,
    (C5_cursor_positioning (NewScreen 4 3) ['7'] ['x'] (by decide) (by decide)
      (by decide) (by decide)).2.1⟩

/-- C6.  `scrollUp` shifts every row up by one (dropping the first),
appends a fresh bottom row of spaces, and pins the cursor row to
`height - 1`; and when the cursor sits on the last row, writing a
newline triggers exactly this scroll, evicting the earliest row of the
grid. -/
theorem C6_scroll_on_overflow (s : Screen) (hw : 0 < s.width) (hh : 0 < s.height)
    (hlen : s.content.length = s.height) :
    scrollUp s = some { s with
        content := s.content.drop 1 ++ [List.replicate s.width ' ']
        cursorY := (s.height : Int) - 1 } ∧
    (s.cursorY = (s.height : Int) - 1 →
      Write s ['\n'] = some { s with
          content := s.content.drop 1 ++ [List.replicate s.width ' ']
          cursorX := 0
          cursorY := (s.height : Int) - 1 }) := by
  refine ⟨scrollUp_eq s hh hlen, fun hcy => ?_⟩
  have h1 : Write s ['\n'] = writeLoop (0 + 1) s ['\n'] := rfl
  rw [h1, writeLoop, if_neg (by decide), if_pos rfl]
  have hpost : postChecks { s with cursorY := s.cursorY + 1, cursorX := 0 } =
      some { s with
        content := s.content.drop 1 ++ [List.replicate s.width ' ']
        cursorX := 0
        cursorY := (s.height : Int) - 1 } := by
    have hwrap : wrapCheck { s with cursorY := s.cursorY + 1, cursorX := 0 } =
        { s with cursorY := s.cursorY + 1, cursorX := 0 } :=
      wrapCheck_in_width _ (by
        show (0 : Int) < (s.width : Int)
        exact_mod_cast hw)
    unfold postChecks
    rw [hwrap]
    rw [if_pos (by
      show (s.height : Int) ≤ s.cursorY + 1
      rw [hcy]
      omega)]
    rw [scrollUp_eq { s with cursorY := s.cursorY + 1, cursorX := 0 } hh hlen]
  rw [hpost]
  rfl

theorem C6_scroll_on_overflow_witness :
    scrollUp { content := [['a', 'b'], ['c', 'd']], width := 2, height := 2,
               cursorX := 0, cursorY := 1 } =
      some { content := [['c', 'd'], [' ', ' ']], width := 2, height := 2,
             cursorX := 0, cursorY := 1 } ∧
    Write { content := [['a', 'b'], ['c', 'd']], width := 2, height := 2,
            cursorX := 0, cursorY := 1 } ['\n'] =
      some { content := [['c', 'd'], [' ', ' ']], width := 2, height := 2,
             cursorX := 0, cursorY := 1 } := by
  have h := C6_scroll_on_overflow
    { content := [['a', 'b'], ['c', 'd']], width := 2, height := 2,
      cursorX := 0, cursorY := 1 } (by decide) (by decide) (by decide)
  exact ⟨h.1, h.2 (by decide)⟩

/-- C10.  Starting from `NewScreen w h` (any positive dimensions), any
sequence of `Write` calls that completes without a panic leaves a grid
of exactly `h` rows, each of exactly `w` columns: every mutation
(`setCell`, the `2J` clear, `scrollUp`) preserves the dimensions, and
`scrollUp` in particular replaces the bottom row by a fresh width-`w`
row of spaces. -/
theorem C10_grid_dimensions (w h : Nat) (hw : 0 < w) (hh : 0 < h)
    (chunks : List (List Char)) (s2 : Screen)
    (hrun : writeChunks (NewScreen w h) chunks = some s2) :
    s2.content.length = h ∧ ∀ row ∈ s2.content, row.length = w := by
  have hws : WellSized (NewScreen w h) := by
    constructor
    · simp [NewScreen]
    · intro row hr
      simp only [NewScreen] at hr
      rw [List.eq_of_mem_replicate hr]
      simp [NewScreen]
  obtain ⟨⟨ha1, ha2⟩, hb, hc⟩ := writeChunks_wellSized chunks (NewScreen w h) s2 hrun hws
  constructor
  · rw [ha1, hc]
    rfl
  · intro row hr
    rw [ha2 row hr, hb]
    rfl

theorem C10_grid_dimensions_witness :
    (Screen.mk [['a', ' '], [' ', ' ']] 2 2 1 0).content.length = 2 ∧
    ∀ row ∈ (Screen.mk [['a', ' '], [' ', ' ']] 2 2 1 0).content, row.length = 2 :=
  C10_grid_dimensions 2 2 (by decide) (by decide) [['a']] _ (by decide)

/-- C4 counterexample.  The claim says no byte of a recognized control
sequence is ever placed into the grid, including sequences split across
`Write` calls.  Splitting `ESC [ 2 J` as `Write "\x1b["` followed by
`Write "2J"` places the bytes `2` and `J` into the grid as printable
characters (the parser keeps no state across calls). -/
theorem C4_counterexample :
    (writeChunks (NewScreen 4 2) [[escChar, '['], ['2', 'J']]).map
        Screen.content =
      some [['2', 'J', ' ', ' '], [' ', ' ', ' ', ' ']] := by
  decide

/-- C4 (amended).  A CSI sequence `ESC [ params final` that is fully
contained in a single `Write` call is consumed without placing any of
its bytes into the grid: every cell of the resulting grid is a space or
a cell already present before the call.  (As the counterexample shows,
this fails for sequences split across `Write` calls, and a bare `ESC`
not followed by `[` is likewise written into the grid.) -/
theorem C4_complete_csi_no_leak (s : Screen) (ps : List Char) (f : Char)
    (hps : ∀ c ∈ ps, isParamByte c = true) (hf : isParamByte f = false)
    (hws : WellSized s) (hh : 0 < s.height) :
    ∃ s2, Write s (escChar :: '[' :: (ps ++ [f])) = some s2 ∧
      cellsFrom s2.content s.content := by
  have hr := readSeq_params_final ps f hps hf
  have hlen : (escChar :: '[' :: (ps ++ [f])).length = (ps.length + 2) + 1 := by
    simp
  unfold Write
  rw [hlen, writeLoop_single_csi (ps.length + 2) s (ps ++ [f]) ps f hr]
  obtain ⟨hwse, he1, he2⟩ := handleEsc_wellSized s (ps ++ [f]) hws
  obtain ⟨s2, hp⟩ := postChecks_some _ hwse (by rw [he2]; exact hh)
  refine ⟨s2, hp, ?_⟩
  refine cellsFrom_trans _ _ _ (postChecks_cellsFrom _ _ hp) ?_
  rcases (handleEsc_shape s (ps ++ [f])).2.2 with hc | hc
  · exact cellsFrom_of_eq _ _ hc
  · rw [hc]
    exact cellsFrom_clear _ _

theorem C4_complete_csi_no_leak_witness :
    ∃ s2, Write (NewScreen 3 2) (escChar :: '[' :: (['9'] ++ ['X'])) = some s2 ∧
      cellsFrom s2.content (NewScreen 3 2).content :=
  C4_complete_csi_no_leak (NewScreen 3 2) ['9'] 'X' (by decide) (by decide)
    (by constructor <;> simp [NewScreen]) (by decide)

theorem C7_clear_screen_witness :
    Write (NewScreen 3 2) [escChar, '[', '2', 'J'] =
      some { (NewScreen 3 2) with content :=
        (NewScreen 3 2).content.map (fun row => row.map (fun _ => ' ')) } :=
  C7_clear_screen (NewScreen 3 2) (by decide) (by decide)

end GoShell
